import Mathlib

namespace AlgoTrading

/-!
Verification of the Historical Data Job Engine of the `algo_trading_system`
repository (files `job_manager.py` and `managers.py`).

Conventions of the embedding:
* instants (`datetime`) and durations (`timedelta`) are measured in whole
  seconds and modelled as `Nat`;
* a candle is modelled by its `'datetime'` field (an optional string, absent
  key modelled as `none`) together with an opaque payload distinguishing
  candles that share a timestamp;
* Python float arithmetic in the candle estimator is modelled as exact
  rational arithmetic, and `int()` on the (non-negative) results as `Nat.floor`.
-/

/-! ## Definitions -/

/-! ### Chunk planner (`HistoricalDataJobManager._calculate_chunk_duration`,
`HistoricalDataJobManager._generate_chunks`, src/job_manager.py lines 284-312) -/

def secondsPerDay : Nat := 86400

/-- `_calculate_chunk_duration` (job_manager.py lines 284-299), in seconds. -/
def calculate_chunk_duration (interval : String) : Nat :=
  if interval = "1second" then 950
  else if interval = "1minute" then 3 * secondsPerDay
  else if interval = "5minute" then 15 * secondsPerDay
  else if interval = "30minute" then 90 * secondsPerDay
  else if interval = "1day" then 950 * secondsPerDay
  else 30 * secondsPerDay

/-- Loop body of `_generate_chunks`: `while current_start < end: append
(current_start, min (current_start + d) end); current_start := that end`.
When `0 < d` every iteration advances `current_start` by at least one second,
so `end - current_start` iterations always suffice; the `fuel` argument makes
the recursion structural.  (For `d = 0` the source loop would not terminate;
`_calculate_chunk_duration` only ever returns positive durations.) -/
def chunksGo (e d : Nat) : Nat → Nat → List (Nat × Nat)
  | 0, _ => []
  | fuel + 1, cur =>
    if cur < e then (cur, min (cur + d) e) :: chunksGo e d fuel (min (cur + d) e)
    else []

/-- `_generate_chunks` (job_manager.py lines 301-312). -/
def generate_chunks (start_dt end_dt chunk_duration : Nat) : List (Nat × Nat) :=
  chunksGo end_dt chunk_duration (end_dt - start_dt) start_dt

/-! ### Merge/dedupe stage (`HistoricalDataJobManager._process_data`,
src/job_manager.py lines 314-332) -/

/-- A candle, reduced to the fields `_process_data` inspects: its
`'datetime'` value (`none` models an absent key) and an opaque payload that
distinguishes candles sharing a timestamp. -/
structure Candle where
  dt : Option String
  payload : Nat
deriving DecidableEq, Repr

/-- Python truthiness of `candle.get('datetime')`: the key is present and its
value is a non-empty string. -/
def truthyDt : Option String → Bool
  | none => false
  | some s => !s.isEmpty

/-- Sort key `x.get('datetime', '')` used by `unique_data.sort`. -/
def sortKey (c : Candle) : String := c.dt.getD ""

/-- Boolean comparison used to model the ascending sort by `'datetime'`. -/
def candleLe (a b : Candle) : Bool := sortKey a ≤ sortKey b

/-- The dedup loop of `_process_data`: `for candle in all_data: dt =
candle.get('datetime'); if dt and dt not in seen_times: seen_times.add(dt);
unique_data.append(candle)`.  The set of seen timestamps is modelled as a
list used only through membership. -/
def dedupeLoop (seen : List String) : List Candle → List Candle
  | [] => []
  | c :: rest =>
    if truthyDt c.dt ∧ c.dt.getD "" ∉ seen then
      c :: dedupeLoop (c.dt.getD "" :: seen) rest
    else
      dedupeLoop seen rest

/-- `_process_data`: early return on an empty input, then first-wins dedup by
`'datetime'`, then an ascending stable sort by `'datetime'` (Python
`list.sort`, modelled by the stable `List.mergeSort`). -/
def process_data (all_data : List Candle) : List Candle :=
  if all_data = [] then []
  else (dedupeLoop [] all_data).mergeSort candleLe

/-- Predicate picking the candles whose `'datetime'` equals `s`. -/
def hasDt (s : String) (c : Candle) : Bool := c.dt == some s

/-- Truthiness of a candle's `'datetime'` as a predicate on the candle. -/
def truthyCandle (c : Candle) : Bool := truthyDt c.dt

/-! ### Candle estimator and chunking decision
(`HistoricalDataManager._estimate_candles` and `HistoricalDataManager.get_data`,
src/managers.py lines 265-320) -/

/-- Market hours 9:15-15:30 IST: 22500 seconds per day. -/
def market_seconds_per_day : ℚ := 22500

/-- The `interval_seconds` dictionary with its `.get(interval, 86400)`
default. -/
def interval_seconds_q (interval : String) : ℚ :=
  if interval = "1second" then 1
  else if interval = "1minute" then 60
  else if interval = "5minute" then 300
  else if interval = "30minute" then 1800
  else if interval = "1day" then market_seconds_per_day
  else 86400

/-- `_estimate_candles` (managers.py lines 296-320).  The requested range is a
normalized `timedelta`: `days` whole days plus `seconds < 86400` leftover
seconds.  Python float arithmetic is modelled as exact rational arithmetic and
`int()` on the non-negative result as the rational floor. -/
def estimate_candles (interval : String) (days seconds : Nat) : ℕ :=
  if interval = "1day" then
    ⌊(days : ℚ) * 5 / 7⌋₊
  else
    ⌊((days : ℚ) + (seconds : ℚ) / 86400) * 5 / 7 * market_seconds_per_day /
      interval_seconds_q interval⌋₊

/-- The chunking decision of `get_data` (managers.py lines 280-290): the range
is fetched in chunks exactly when the estimate exceeds 950, and as one single
request otherwise. -/
def get_data_uses_chunking (interval : String) (days seconds : Nat) : Bool :=
  950 < estimate_candles interval days seconds

/-- The estimate as the claim words it, for the refinement comparison: for the
daily interval, the number of calendar days times 5/7, truncated to an
integer; for intraday intervals, the number of interval lengths in the range
further scaled by 5/7 and by the fraction of a day that is market session
time (22500 of 86400 seconds). -/
def spec_estimate (interval : String) (days seconds : Nat) : ℕ :=
  if interval = "1day" then (days * 5) / 7
  else ⌊(((days : ℚ) * 86400 + (seconds : ℚ)) / interval_seconds_q interval)
        * (5 / 7) * (22500 / 86400)⌋₊

/-! ### Job registry, state machine and batch executor
(`HistoricalDataJobManager`, src/job_manager.py lines 68-406)

The manager runs on a single-threaded cooperative event loop.  One job is
modelled (operations are keyed by `job_id` and never touch other jobs'
records).  The executor coroutine `_execute_job` is cut at its true
suspension points — the `asyncio.gather` of each batch of chunk fetches and
the `asyncio.sleep(0.1)` between batches — and everything between two
suspension points runs atomically, which is exactly the behavior when no
progress callback is registered (`_update_progress` then awaits nothing that
yields).  `cancel_job` calls `task.cancel()`, and the resulting
`CancelledError` is delivered when the suspended coroutine would next resume;
being a `BaseException`, it is not caught by the `except Exception` clause of
`_execute_job`, so only the `finally` block (removal from `active_jobs`)
runs. -/

inductive JStatus
  | pending
  | running
  | completed
  | failed
  | cancelled
deriving DecidableEq, Repr

/-- Where the executor coroutine of the job currently stands. -/
inductive ExecPC
  | notStarted
  /-- suspended at the `asyncio.gather` of the batch of chunks starting at
  chunk index `b`. -/
  | awaitingGather (b : Nat)
  /-- suspended at the `asyncio.sleep(0.1)` after the batch starting at chunk
  index `b`. -/
  | awaitingSleep (b : Nat)
  /-- no live executor coroutine (never started and cancelled, or finished). -/
  | finished
deriving DecidableEq, Repr

/-- Environment of one job: the parsed request and the outcomes the chunk
fetches would produce.  `fetch i = some data` models a response
`{'Success': data}` for chunk `i`; `fetch i = none` models an exception
inside the fetch (caught by `_fetch_single_chunk`, which returns `None`), a
missing `'Success'` key, or a falsy `'Success'` value — all of which
`_execute_job` skips. -/
structure JobEnv where
  /-- whether `datetime.fromisoformat` accepts the job's date strings. -/
  parseOk : Bool
  startT : Nat
  endT : Nat
  interval : String
  fetch : Nat → Option (List Candle)

def JobEnv.chunks (env : JobEnv) : List (Nat × Nat) :=
  generate_chunks env.startT env.endT (calculate_chunk_duration env.interval)

def JobEnv.nChunks (env : JobEnv) : Nat := env.chunks.length

/-- Mutable state of one job record plus its executor task.
`active` is membership of the job id in `manager.active_jobs`;
`cancelRequested` records a pending `task.cancel()`;
`allData` is the executor's local `all_data` accumulator;
`persisted` is instrumentation: the candles last handed to
`store_job_data`; `emitted` is instrumentation: the `percentage` of every
`_update_progress` call since the last `start_job`, tagged with `job.status`
at emission time. -/
structure JobState where
  status : JStatus
  active : Bool
  cancelRequested : Bool
  pc : ExecPC
  allData : List Candle
  resultData : Option (List Candle)
  persisted : Option (List Candle)
  emitted : List (ℚ × JStatus)
deriving DecidableEq, Repr

/-- `_update_progress` (job_manager.py lines 334-348), with no registered
callbacks: records the percentage. -/
def emit (s : JobState) (p : ℚ) : JobState :=
  { s with emitted := s.emitted ++ [(p, s.status)] }

/-- The per-chunk progress percentage `(i + idx + 1) / len(chunks) * 90 + 5`
(job_manager.py line 196). -/
def chunkPct (k n : Nat) : ℚ := (k : ℚ) / (n : ℚ) * 90 + 5

/-- One iteration of the result loop of `_execute_job` (lines 186-201): a
successful chunk extends `all_data`; every settled chunk emits a progress
update. -/
def batchStep (env : JobEnv) (n b : Nat) (s : JobState) (idx : Nat) : JobState :=
  let s1 := match env.fetch (b + idx) with
    | some data => { s with allData := s.allData ++ data }
    | none => s
  emit s1 (chunkPct (b + idx + 1) n)

/-- Processing of the settled batch whose chunks start at index `b`
(`batch = chunks[i:i + max_parallel_chunks]`, `max_parallel_chunks = 10`). -/
def processBatch (env : JobEnv) (b : Nat) (s : JobState) : JobState :=
  (List.range (min 10 (env.nChunks - b))).foldl (batchStep env env.nChunks b) s

/-- Tail of `_execute_job` after the fetch loop (lines 206-250): progress 95,
`_process_data`, progress 98, `store_job_data`, completion fields, status
`COMPLETED`, progress 100, then the `finally` removal from `active_jobs`. -/
def finalBlock (s : JobState) : JobState :=
  let s1 := emit s 95
  let unique := process_data s1.allData
  let s2 := emit s1 98
  let s3 := { s2 with persisted := some unique }
  let s4 := { s3 with resultData := some unique, status := JStatus.completed }
  let s5 := emit s4 100
  { s5 with active := false, pc := ExecPC.finished }

/-- The `except Exception` handler of `_execute_job` (lines 252-269): status
`FAILED`, then a progress update with percentage 0, then the `finally`
removal from `active_jobs`. -/
def failBlock (s : JobState) : JobState :=
  let s1 := { s with status := JStatus.failed }
  let s2 := emit s1 0
  { s2 with active := false, pc := ExecPC.finished }

/-- Head of `_execute_job` (lines 145-164) up to the first suspension:
progress 0, date parsing (an invalid date raises and reaches the `except`
handler), chunk computation, progress 5, then the first batch's gather — or
the tail directly when there are no chunks. -/
def initBlock (env : JobEnv) (s : JobState) : JobState :=
  let s1 := emit s 0
  if env.parseOk then
    let s2 := emit s1 5
    if env.nChunks = 0 then finalBlock s2
    else { s2 with pc := ExecPC.awaitingGather 0 }
  else failBlock s1

/-- The scheduler resumes the executor task: if cancellation was requested
while the coroutine was suspended, `CancelledError` is raised there and only
the `finally` block runs; a task cancelled before its coroutine ever ran never
executes the body (so the `finally` removal from `active_jobs` never runs).
Otherwise the code up to the next suspension point runs atomically. -/
def resumeStep (env : JobEnv) (s : JobState) : JobState :=
  match s.pc with
  | ExecPC.finished => s
  | ExecPC.notStarted =>
      if s.cancelRequested then { s with pc := ExecPC.finished }
      else initBlock env s
  | ExecPC.awaitingGather b =>
      if s.cancelRequested then
        { s with active := false, pc := ExecPC.finished }
      else
        let s1 := processBatch env b s
        { s1 with pc := ExecPC.awaitingSleep b }
  | ExecPC.awaitingSleep b =>
      if s.cancelRequested then
        { s with active := false, pc := ExecPC.finished }
      else
        if b + 10 < env.nChunks then { s with pc := ExecPC.awaitingGather (b + 10) }
        else finalBlock s

/-- `start_job` (job_manager.py lines 116-141): refused while an executor
task is registered, otherwise unconditionally sets `RUNNING` and schedules a
fresh executor task (fresh coroutine locals; the emission trace restarts). -/
def startJob (s : JobState) : JobState :=
  if s.active then s
  else
    { s with status := JStatus.running, active := true, cancelRequested := false,
             pc := ExecPC.notStarted, allData := [], emitted := [] }

/-- `cancel_job` (job_manager.py lines 358-376): only acts when an executor
task is registered; then requests task cancellation and immediately marks the
job `CANCELLED`. -/
def cancelJob (s : JobState) : JobState :=
  if s.active then
    { s with cancelRequested := true, status := JStatus.cancelled }
  else s

/-- Return value of `cancel_job`: whether a task was registered under the job
id at call time. -/
def cancelRet (s : JobState) : Bool := s.active

/-- The registry operations that can touch the job after its creation. -/
inductive JobOp
  | start
  | cancel
  | resume
deriving DecidableEq, Repr

def applyOp (env : JobEnv) (s : JobState) : JobOp → JobState
  | JobOp.start => startJob s
  | JobOp.cancel => cancelJob s
  | JobOp.resume => resumeStep env s

/-- State right after `create_job` (job_manager.py lines 78-114): status
`PENDING`, no executor task. -/
def initialState : JobState :=
  { status := JStatus.pending, active := false, cancelRequested := false,
    pc := ExecPC.finished, allData := [], resultData := none,
    persisted := none, emitted := [] }

/-- The job state after a sequence of registry operations on a fresh job. -/
def runOps (env : JobEnv) (ops : List JobOp) : JobState :=
  ops.foldl (applyOp env) initialState

/-- `resumeStep` iterated: the executor driven for `m` scheduler turns. -/
def resumeN (env : JobEnv) : Nat → JobState → JobState
  | 0, s => s
  | m + 1, s => resumeN env m (resumeStep env s)

/-- Concatenated chunk data of the `c` chunks from index `b` on, a failed or
empty chunk contributing nothing. -/
def batchData (env : JobEnv) (b c : Nat) : List Candle :=
  ((List.range c).map (fun idx => (env.fetch (b + idx)).getD [])).flatten

/-- Chunk data of all chunks from index `b` to the end. -/
def tailData (env : JobEnv) (b : Nat) : List Candle :=
  batchData env b (env.nChunks - b)

/-- Progress emissions of the result loop over one settled batch. -/
def batchEmits (env : JobEnv) (n b c : Nat) (st : JStatus) : List (ℚ × JStatus) :=
  (List.range c).map (fun idx => (chunkPct (b + idx + 1) n, st))

/-- Percentages among a trace that were emitted while the job was RUNNING. -/
def pctsOf (l : List (ℚ × JStatus)) : List ℚ :=
  (l.filter (fun x => x.2 == JStatus.running)).map Prod.fst

/-- Percentages emitted while RUNNING since the job was last started. -/
def runPcts (s : JobState) : List ℚ := pctsOf s.emitted

/-- Lower bound on every future RUNNING-time emission of the executor (and
upper bound on all past ones), by executor position. -/
def lowBound (env : JobEnv) (s : JobState) : ℚ :=
  match s.pc with
  | ExecPC.notStarted => 0
  | ExecPC.awaitingGather b => chunkPct b env.nChunks
  | ExecPC.awaitingSleep b => chunkPct (min (b + 10) env.nChunks) env.nChunks
  | ExecPC.finished => 100

/-- Reachability invariant of the job model: consistency of status, executor
position and the emission trace. -/
structure JobInv (env : JobEnv) (s : JobState) : Prop where
  hStatus : s.pc ≠ ExecPC.finished →
    s.status = JStatus.running ∨
      (s.status = JStatus.cancelled ∧ s.cancelRequested = true)
  hPending : s.status = JStatus.pending → s.active = false
  hTerm : s.status = JStatus.completed ∨ s.status = JStatus.failed →
    s.active = false ∧ s.pc = ExecPC.finished
  hGather : ∀ b, s.pc = ExecPC.awaitingGather b → b < env.nChunks
  hSleep : ∀ b, s.pc = ExecPC.awaitingSleep b → b < env.nChunks
  hFresh : s.pc = ExecPC.notStarted → s.cancelRequested = false →
    s.status = JStatus.running ∧ s.emitted = []
  hBounds : ∀ x ∈ s.emitted, 0 ≤ x.1 ∧ x.1 ≤ 100
  hMono : (runPcts s).Pairwise (fun a b => a ≤ b)
  hLow : ∀ q ∈ runPcts s, q ≤ lowBound env s

/-- Concrete single-chunk environment: a one-day range at daily interval,
whose one chunk succeeds with an empty candle list. -/
def envA : JobEnv :=
  { parseOk := true, startT := 0, endT := 1, interval := "1day",
    fetch := fun _ => some [] }

/-- Concrete two-chunk environment: 1900 seconds at the per-second interval
(chunk duration 950 s), where chunk 0 succeeds and chunk 1 fails. -/
def envB : JobEnv :=
  { parseOk := true, startT := 0, endT := 1900, interval := "1second",
    fetch := fun i => if i = 0 then some [] else none }

/-! ## Theorems -/

theorem calculate_chunk_duration_pos (interval : String) :
    0 < calculate_chunk_duration interval := by
  unfold calculate_chunk_duration secondsPerDay
  repeat' split
  all_goals norm_num

theorem chunksGo_stop {e d fuel cur : Nat} (h : ¬ cur < e) :
    chunksGo e d fuel cur = [] := by
  cases fuel with
  | zero => rfl
  | succ fuel => simp [chunksGo, h]

/-- The result of `chunksGo` does not depend on the fuel, as long as there is
enough of it. -/
theorem chunksGo_congr {e d : Nat} (hd : 0 < d) :
    ∀ fuel fuel₂ cur, e - cur ≤ fuel → e - cur ≤ fuel₂ →
      chunksGo e d fuel cur = chunksGo e d fuel₂ cur := by
  intro fuel
  induction fuel with
  | zero =>
    intro fuel₂ cur h1 _
    have hcur : ¬ cur < e := by omega
    rw [chunksGo_stop hcur, chunksGo_stop hcur]
  | succ fuel ih =>
    intro fuel₂ cur h1 h2
    by_cases hcur : cur < e
    · cases fuel₂ with
      | zero => omega
      | succ fuel₂ =>
        simp only [chunksGo, if_pos hcur]
        have hm : e - min (cur + d) e ≤ fuel := by omega
        have hm₂ : e - min (cur + d) e ≤ fuel₂ := by omega
        rw [ih fuel₂ (min (cur + d) e) hm hm₂]
    · rw [chunksGo_stop hcur, chunksGo_stop hcur]

theorem generate_chunks_eq_cons {s e d : Nat} (hd : 0 < d) (hse : s < e) :
    generate_chunks s e d =
      (s, min (s + d) e) :: generate_chunks (min (s + d) e) e d := by
  unfold generate_chunks
  have h1 : e - s = (e - s - 1) + 1 := by omega
  rw [h1]
  simp only [chunksGo, if_pos hse]
  congr 1
  exact chunksGo_congr hd _ _ _ (by omega) (by omega)

theorem generate_chunks_eq_nil {s e d : Nat} (hse : ¬ s < e) :
    generate_chunks s e d = [] := by
  unfold generate_chunks
  exact chunksGo_stop hse

theorem chunksGo_mem {e d : Nat} (hd : 0 < d) :
    ∀ fuel cur, ∀ c ∈ chunksGo e d fuel cur,
      cur ≤ c.1 ∧ c.1 < c.2 ∧ c.2 ≤ e := by
  intro fuel
  induction fuel with
  | zero => intro cur c hc; simp [chunksGo] at hc
  | succ fuel ih =>
    intro cur c hc
    by_cases hcur : cur < e
    · simp only [chunksGo, if_pos hcur, List.mem_cons] at hc
      rcases hc with hc | hc
      · subst hc
        refine ⟨le_refl _, ?_, ?_⟩
        · show cur < min (cur + d) e
          omega
        · show min (cur + d) e ≤ e
          omega
      · have := ih (min (cur + d) e) c hc
        refine ⟨?_, this.2.1, this.2.2⟩
        have : cur ≤ min (cur + d) e := by omega
        omega
    · rw [chunksGo_stop hcur] at hc; simp at hc

/-- Head shape: a nonempty `chunksGo` starts with the chunk beginning at `cur`. -/
theorem chunksGo_head {e d : Nat} (fuel cur : Nat) :
    chunksGo e d fuel cur = [] ∨
      ∃ t, chunksGo e d fuel cur = (cur, min (cur + d) e) :: t := by
  cases fuel with
  | zero => exact Or.inl rfl
  | succ fuel =>
    by_cases hcur : cur < e
    · exact Or.inr ⟨chunksGo e d fuel (min (cur + d) e), by simp [chunksGo, hcur]⟩
    · exact Or.inl (chunksGo_stop hcur)

theorem chunksGo_chain {e d : Nat} :
    ∀ fuel cur, List.Chain' (fun a b : Nat × Nat => a.2 = b.1)
      (chunksGo e d fuel cur) := by
  intro fuel
  induction fuel with
  | zero => intro cur; simp [chunksGo]
  | succ fuel ih =>
    intro cur
    by_cases hcur : cur < e
    · simp only [chunksGo, if_pos hcur]
      refine List.chain'_cons'.mpr ⟨?_, ih (min (cur + d) e)⟩
      intro y hy
      rcases @chunksGo_head e d fuel (min (cur + d) e) with h | ⟨t, h⟩
      · rw [h] at hy; simp at hy
      · rw [h] at hy
        simp at hy
        rw [← hy]
    · rw [chunksGo_stop hcur]; exact List.chain'_nil

theorem chunksGo_last {e d : Nat} (hd : 0 < d) :
    ∀ fuel cur, e - cur ≤ fuel → cur < e →
      ((chunksGo e d fuel cur).getLast?).map Prod.snd = some e := by
  intro fuel
  induction fuel with
  | zero => intro cur h1 h2; omega
  | succ fuel ih =>
    intro cur h1 h2
    simp only [chunksGo, if_pos h2]
    by_cases hm : min (cur + d) e < e
    · have hrec := ih (min (cur + d) e) (by omega) hm
      rcases @chunksGo_head e d fuel (min (cur + d) e) with h | ⟨t, h⟩
      · rw [h] at hrec; simp at hrec
      · rw [h] at hrec ⊢
        rw [List.getLast?_cons_cons]
        exact hrec
    · have hme : min (cur + d) e = e := by omega
      rw [chunksGo_stop (by omega)]
      simp [hme]

theorem chunksGo_length {e d : Nat} (hd : 0 < d) :
    ∀ fuel cur, e - cur ≤ fuel →
      (chunksGo e d fuel cur).length = (e - cur + d - 1) / d := by
  intro fuel
  induction fuel with
  | zero =>
    intro cur h1
    have h0 : e - cur = 0 := by omega
    rw [chunksGo_stop (by omega), h0]
    exact (Nat.div_eq_of_lt (by omega : 0 + d - 1 < d)).symm
  | succ fuel ih =>
    intro cur h1
    by_cases hcur : cur < e
    · simp only [chunksGo, if_pos hcur, List.length_cons]
      have hR : e - cur + d - 1 = (e - cur - 1) + d := by omega
      rcases Nat.le_total (cur + d) e with hcd | hcd
      · rw [min_eq_left hcd, ih (cur + d) (by omega)]
        have hL : e - (cur + d) + d - 1 = e - cur - 1 := by omega
        rw [hL, hR, Nat.add_div_right _ hd]
      · rw [min_eq_right hcd, chunksGo_stop (lt_irrefl e)]
        rw [hR, Nat.add_div_right _ hd,
          Nat.div_eq_of_lt (by omega : e - cur - 1 < d)]
        rfl
    · rw [chunksGo_stop hcur]
      have h0 : e - cur = 0 := by omega
      rw [h0]
      exact (Nat.div_eq_of_lt (by omega : 0 + d - 1 < d)).symm

/-- C1: for every `start < end` and every interval's chunk duration `d`, the
chunk list of `_generate_chunks` is a chain in which each chunk's end is the
next chunk's start, each chunk is nonempty (hence the chunks are
non-overlapping), the first chunk starts at `start`, the last chunk ends
exactly at `end`, and the number of chunks is `⌈(end - start) / d⌉`,
written `(end - start + d - 1) / d` in truncated `Nat` division. -/
theorem chunk_planner_correct (start_dt end_dt : Nat) (interval : String)
    (h : start_dt < end_dt) :
    List.Chain' (fun a b : Nat × Nat => a.2 = b.1)
      (generate_chunks start_dt end_dt (calculate_chunk_duration interval)) ∧
    (∀ c ∈ generate_chunks start_dt end_dt (calculate_chunk_duration interval),
      c.1 < c.2) ∧
    ((generate_chunks start_dt end_dt (calculate_chunk_duration interval)).head?).map
        Prod.fst = some start_dt ∧
    ((generate_chunks start_dt end_dt (calculate_chunk_duration interval)).getLast?).map
        Prod.snd = some end_dt ∧
    (generate_chunks start_dt end_dt (calculate_chunk_duration interval)).length =
      (end_dt - start_dt + calculate_chunk_duration interval - 1) /
        calculate_chunk_duration interval := by
  set d := calculate_chunk_duration interval with hd_def
  have hd : 0 < d := calculate_chunk_duration_pos interval
  refine ⟨chunksGo_chain _ _, ?_, ?_, ?_, ?_⟩
  · intro c hc
    exact (chunksGo_mem hd _ _ c hc).2.1
  · unfold generate_chunks
    have h1 : end_dt - start_dt = (end_dt - start_dt - 1) + 1 := by omega
    rw [h1]
    simp only [chunksGo, if_pos h]
    rfl
  · exact chunksGo_last hd _ _ (le_refl _) h
  · exact chunksGo_length hd _ _ (le_refl _)

/-- Witness for `chunk_planner_correct` at `start = 0`, `end = 2000`,
interval `"1second"` (chunk duration 950 s): three chunks. -/
theorem chunk_planner_correct_witness :
    List.Chain' (fun a b : Nat × Nat => a.2 = b.1)
      (generate_chunks 0 2000 (calculate_chunk_duration "1second")) ∧
    (∀ c ∈ generate_chunks 0 2000 (calculate_chunk_duration "1second"),
      c.1 < c.2) ∧
    ((generate_chunks 0 2000 (calculate_chunk_duration "1second")).head?).map
        Prod.fst = some 0 ∧
    ((generate_chunks 0 2000 (calculate_chunk_duration "1second")).getLast?).map
        Prod.snd = some 2000 ∧
    (generate_chunks 0 2000 (calculate_chunk_duration "1second")).length =
      (2000 - 0 + calculate_chunk_duration "1second" - 1) /
        calculate_chunk_duration "1second" :=
  chunk_planner_correct 0 2000 "1second" (by decide)

theorem candleLe_trans (a b c : Candle) :
    candleLe a b → candleLe b c → candleLe a c := by
  simp only [candleLe, decide_eq_true_eq]
  exact le_trans

theorem candleLe_total (a b : Candle) : candleLe a b || candleLe b a := by
  simp only [candleLe, Bool.or_eq_true, decide_eq_true_eq]
  exact le_total _ _

/-- Every candle kept by the dedup loop comes from the input and has a truthy
timestamp that was not among the already-seen ones. -/
theorem dedupeLoop_mem {seen : List String} {l : List Candle} :
    ∀ c ∈ dedupeLoop seen l, c ∈ l ∧ truthyDt c.dt = true ∧ sortKey c ∉ seen := by
  induction l generalizing seen with
  | nil => intro c hc; simp [dedupeLoop] at hc
  | cons x rest ih =>
    intro c hc
    unfold dedupeLoop at hc
    split at hc
    · rename_i hx
      rcases List.mem_cons.mp hc with hc | hc
      · subst hc
        exact ⟨List.mem_cons_self _ _, hx.1, hx.2⟩
      · have h3 := @ih (x.dt.getD "" :: seen) c hc
        exact ⟨List.mem_cons_of_mem _ h3.1, h3.2.1,
          fun hs => h3.2.2 (List.mem_cons_of_mem _ hs)⟩
    · have h3 := @ih seen c hc
      exact ⟨List.mem_cons_of_mem _ h3.1, h3.2.1, h3.2.2⟩

/-- The keys of the candles kept by the dedup loop are pairwise distinct. -/
theorem dedupeLoop_pairwise (seen : List String) (l : List Candle) :
    (dedupeLoop seen l).Pairwise (fun a b => sortKey a ≠ sortKey b) := by
  induction l generalizing seen with
  | nil => simp [dedupeLoop]
  | cons x rest ih =>
    unfold dedupeLoop
    split
    · rename_i hx
      refine List.pairwise_cons.mpr ⟨?_, ih _⟩
      intro b hb
      have h3 := dedupeLoop_mem b hb
      intro hkey
      exact h3.2.2 (by rw [← hkey]; exact List.mem_cons_self _ _)
    · exact ih _

theorem hasDt_true {s : String} {c : Candle} (h : c.dt = some s) :
    hasDt s c = true := by simp [hasDt, h]

theorem hasDt_false {s : String} {c : Candle} (h : c.dt ≠ some s) :
    ¬ hasDt s c = true := by simp [hasDt, h]

/-- First-wins: among the survivors of the dedup loop, the one carrying a
given fresh timestamp `s` is exactly the first candle of the input whose
`'datetime'` is `s`. -/
theorem dedupeLoop_filter (s : String) (seen : List String) (l : List Candle) :
    (dedupeLoop seen l).filter (hasDt s) =
      if s.isEmpty ∨ s ∈ seen then []
      else (l.find? (hasDt s)).toList := by
  induction l generalizing seen with
  | nil =>
    simp only [dedupeLoop, List.filter_nil, List.find?_nil]
    split <;> rfl
  | cons x rest ih =>
    unfold dedupeLoop
    by_cases hxs : x.dt = some s
    · have hkey : x.dt.getD "" = s := by rw [hxs]; rfl
      have hfil : hasDt s x = true := hasDt_true hxs
      by_cases hkeep : truthyDt x.dt ∧ x.dt.getD "" ∉ seen
      · rw [if_pos hkeep]
        rw [List.filter_cons_of_pos hfil, ih]
        have hse : ¬ (s.isEmpty ∨ s ∈ seen) := by
          rcases hkeep with ⟨ht, hns⟩
          rw [hxs] at ht
          simp only [truthyDt, Bool.not_eq_true'] at ht
          rw [hkey] at hns
          simp [ht, hns]
        rw [if_neg hse]
        have hin : s.isEmpty ∨ s ∈ s :: seen := Or.inr (List.mem_cons_self _ _)
        rw [hkey, if_pos hin, List.find?_cons_of_pos _ hfil]
        rfl
      · rw [if_neg hkeep, ih]
        have hcase : s.isEmpty ∨ s ∈ seen := by
          rcases not_and_or.mp hkeep with ht | hns
          · left
            rw [hxs] at ht
            simp only [truthyDt, Bool.not_eq_true] at ht
            simpa using ht
          · right
            rw [hkey] at hns
            simpa using hns
        rw [if_pos hcase, if_pos hcase]
    · have hfil : ¬ hasDt s x = true := hasDt_false hxs
      by_cases hkeep : truthyDt x.dt ∧ x.dt.getD "" ∉ seen
      · rw [if_pos hkeep, List.filter_cons_of_neg hfil, ih,
          List.find?_cons_of_neg _ hfil]
        have hxs2 : x.dt.getD "" ≠ s := by
          intro hk
          rcases hkeep with ⟨ht, _⟩
          cases hdt : x.dt with
          | none => rw [hdt] at ht; simp [truthyDt] at ht
          | some v =>
            rw [hdt] at hk
            apply hxs
            rw [hdt]
            simpa using hk
        by_cases hmem : s.isEmpty ∨ s ∈ seen
        · rw [if_pos hmem, if_pos (by
            rcases hmem with hm | hm
            · exact Or.inl hm
            · exact Or.inr (List.mem_cons_of_mem _ hm))]
        · rw [if_neg hmem, if_neg (by
            intro hcon
            rcases hcon with hm | hm
            · exact hmem (Or.inl hm)
            · rcases List.mem_cons.mp hm with hm | hm
              · exact hxs2 (by rw [hm])
              · exact hmem (Or.inr hm))]
      · rw [if_neg hkeep, ih, List.find?_cons_of_neg _ hfil]

/-- The dedup loop leaves a list untouched when all its candles are truthy,
their keys are pairwise distinct, and none of the keys was seen before. -/
theorem dedupeLoop_id (seen : List String) (l : List Candle) :
    (∀ c ∈ l, truthyDt c.dt = true) →
    l.Pairwise (fun a b => sortKey a ≠ sortKey b) →
    (∀ c ∈ l, sortKey c ∉ seen) →
    dedupeLoop seen l = l := by
  induction l generalizing seen with
  | nil => intro _ _ _; rfl
  | cons x rest ih =>
    intro ht hnd hdisj
    unfold dedupeLoop
    rw [if_pos ⟨ht x (List.mem_cons_self _ _), hdisj x (List.mem_cons_self _ _)⟩]
    have hrec := ih (x.dt.getD "" :: seen)
      (fun c hc => ht c (List.mem_cons_of_mem _ hc))
      (List.pairwise_cons.mp hnd).2 (by
        intro c hc hmem
        rcases List.mem_cons.mp hmem with hm | hm
        · exact (List.pairwise_cons.mp hnd).1 c hc hm.symm
        · exact hdisj c (List.mem_cons_of_mem _ hc) hm)
    rw [hrec]

/-- Dropping the untimed candles before the dedup loop changes nothing: the
loop itself skips every candle with a falsy `'datetime'`. -/
theorem dedupeLoop_of_filter_truthy (seen : List String) (l : List Candle) :
    dedupeLoop seen (l.filter truthyCandle) = dedupeLoop seen l := by
  induction l generalizing seen with
  | nil => rfl
  | cons x rest ih =>
    by_cases hx : truthyCandle x = true
    · rw [List.filter_cons_of_pos hx]
      have hx2 : truthyDt x.dt = true := hx
      show dedupeLoop seen (x :: rest.filter truthyCandle) = _
      unfold dedupeLoop
      by_cases hseen : x.dt.getD "" ∉ seen
      · rw [if_pos ⟨hx2, hseen⟩, if_pos ⟨hx2, hseen⟩, ih]
      · rw [if_neg (by intro hcon; exact hseen hcon.2),
          if_neg (by intro hcon; exact hseen hcon.2), ih]
    · rw [List.filter_cons_of_neg hx]
      conv_rhs => unfold dedupeLoop
      rw [if_neg (by intro hcon; exact hx hcon.1), ih]

theorem process_data_mem {X : List Candle} :
    ∀ c ∈ process_data X, c ∈ X ∧ truthyDt c.dt = true := by
  intro c hc
  unfold process_data at hc
  split at hc
  · simp at hc
  · rw [List.mem_mergeSort] at hc
    have h := dedupeLoop_mem c hc
    exact ⟨h.1, h.2.1⟩

/-- Output of `_process_data` is pairwise strictly increasing in the key. -/
theorem process_data_pairwise (X : List Candle) :
    (process_data X).Pairwise (fun a b => sortKey a < sortKey b) := by
  unfold process_data
  split
  · exact List.Pairwise.nil
  · have hle : ((dedupeLoop [] X).mergeSort candleLe).Pairwise
        (fun a b => candleLe a b = true) :=
      List.sorted_mergeSort candleLe_trans candleLe_total _
    have hperm := List.mergeSort_perm (dedupeLoop [] X) candleLe
    have hne : ((dedupeLoop [] X).mergeSort candleLe).Pairwise
        (fun a b => sortKey a ≠ sortKey b) :=
      (hperm.pairwise_iff (by intro a b hab; exact hab.symm)).mpr
        (dedupeLoop_pairwise [] X)
    refine (hle.and hne).imp ?_
    intro a b hab
    have h1 : sortKey a ≤ sortKey b := by
      have := hab.1
      simpa [candleLe] using this
    exact lt_of_le_of_ne h1 hab.2

/-- C2: merge/dedupe is idempotent — `_process_data` applied to its own
output returns that output unchanged. -/
theorem process_data_idempotent (X : List Candle) :
    process_data (process_data X) = process_data X := by
  by_cases hX : X = []
  · subst hX; rfl
  · by_cases hout : process_data X = []
    · rw [hout]; rfl
    · have hmem := @process_data_mem X
      have hsorted := process_data_pairwise X
      have hle : (process_data X).Pairwise (fun a b => candleLe a b = true) := by
        refine hsorted.imp ?_
        intro a b hab
        simp [candleLe, le_of_lt hab]
      have hne : (process_data X).Pairwise (fun a b => sortKey a ≠ sortKey b) := by
        refine hsorted.imp ?_
        intro a b hab
        exact ne_of_lt hab
      show (if process_data X = [] then []
        else (dedupeLoop [] (process_data X)).mergeSort candleLe) = process_data X
      rw [if_neg hout]
      rw [dedupeLoop_id [] _ (fun c hc => (hmem c hc).2) hne
        (fun c _ hm => (List.not_mem_nil _ hm))]
      exact List.mergeSort_of_sorted hle

/-- C3: for every input, the output of `_process_data` is strictly ascending
in the `'datetime'` key (hence no two output candles share a datetime), and
for every non-empty datetime string `s` the output's unique candle with
datetime `s` — if any — is exactly the first candle of the input carrying
`s` (stable, first-wins). -/
theorem process_data_first_wins (X : List Candle) :
    (process_data X).Pairwise (fun a b => sortKey a < sortKey b) ∧
    ∀ s : String, s ≠ "" →
      (process_data X).filter (hasDt s) = (X.find? (hasDt s)).toList := by
  refine ⟨process_data_pairwise X, ?_⟩
  intro s hs
  by_cases hX : X = []
  · subst hX; rfl
  · have hperm : List.Perm ((process_data X).filter (hasDt s))
        ((dedupeLoop [] X).filter (hasDt s)) := by
      unfold process_data
      rw [if_neg hX]
      exact (List.mergeSort_perm _ _).filter _
    have hded := dedupeLoop_filter s [] X
    have hcond : ¬ (s.isEmpty = true ∨ s ∈ ([] : List String)) := by
      simp [String.isEmpty_iff, hs]
    rw [if_neg hcond] at hded
    rw [hded] at hperm
    cases hfind : X.find? (hasDt s) with
    | none =>
      rw [hfind] at hperm
      exact hperm.eq_nil
    | some c =>
      rw [hfind] at hperm
      exact List.perm_singleton.mp hperm

/-- Witness for `process_data_first_wins`: with two candles sharing the
datetime `"b"`, the output keeps exactly the first of them. -/
theorem process_data_first_wins_witness :
    (process_data [Candle.mk (some "b") 0, Candle.mk (some "a") 1,
        Candle.mk (some "b") 2]).filter (hasDt "b") =
      [Candle.mk (some "b") 0] := by
  have h := (process_data_first_wins [Candle.mk (some "b") 0,
    Candle.mk (some "a") 1, Candle.mk (some "b") 2]).2 "b" (by decide)
  rw [h]
  rfl

/-- C10: `_process_data` silently drops every candle whose `'datetime'` is
missing or falsy: all output candles have a truthy `'datetime'`, and the
output coincides with the output on the input restricted to candles with a
truthy `'datetime'`. -/
theorem process_data_drops_untimed (X : List Candle) :
    (∀ c ∈ process_data X, truthyDt c.dt = true) ∧
    process_data X = process_data (X.filter truthyCandle) := by
  refine ⟨fun c hc => (process_data_mem c hc).2, ?_⟩
  by_cases hX : X = []
  · subst hX; rfl
  · by_cases hXf : X.filter truthyCandle = []
    · show process_data X = _
      unfold process_data
      rw [if_neg hX, if_pos hXf, ← dedupeLoop_of_filter_truthy [] X, hXf]
      simp [dedupeLoop]
    · unfold process_data
      rw [if_neg hX, if_neg hXf, dedupeLoop_of_filter_truthy [] X]

/-- Witness for `process_data_drops_untimed`: a candle with an absent
datetime does not survive, a timed candle does. -/
theorem process_data_drops_untimed_witness :
    truthyDt (Candle.mk (some "a") 0).dt = true ∧
    process_data [Candle.mk (some "a") 0, Candle.mk none 5] =
      process_data (List.filter truthyCandle
        [Candle.mk (some "a") 0, Candle.mk none 5]) := by
  have h := process_data_drops_untimed [Candle.mk (some "a") 0, Candle.mk none 5]
  refine ⟨h.1 (Candle.mk (some "a") 0) ?_, h.2⟩
  have hpd : process_data [Candle.mk (some "a") 0, Candle.mk none 5] =
      (dedupeLoop [] [Candle.mk (some "a") 0, Candle.mk none 5]).mergeSort candleLe := by
    unfold process_data
    rw [if_neg (by simp)]
  have hded : dedupeLoop [] [Candle.mk (some "a") 0, Candle.mk none 5] =
      [Candle.mk (some "a") 0] := by
    unfold dedupeLoop
    rw [if_pos (by refine ⟨by decide, ?_⟩; simp)]
    rfl
  rw [hpd, hded, List.mergeSort_singleton]
  exact List.mem_singleton_self _

/-- C8: for each supported interval, chunking is applied iff the claim's
estimate exceeds 950, and the code's estimate agrees with the claim's
formulas (daily: calendar days times 5/7 truncated; intraday: further scaled
by the market-session fraction of the day). -/
theorem get_data_chunking_iff (interval : String) (days seconds : Nat)
    (h : interval ∈ ["1second", "1minute", "5minute", "30minute", "1day"]) :
    (get_data_uses_chunking interval days seconds = true ↔
      950 < spec_estimate interval days seconds) ∧
    estimate_candles interval days seconds = spec_estimate interval days seconds := by
  have heq : estimate_candles interval days seconds =
      spec_estimate interval days seconds := by
    simp only [List.mem_cons, List.mem_singleton] at h
    rcases h with h | h | h | h | h | h
    · subst h
      simp only [estimate_candles, spec_estimate, interval_seconds_q,
        market_seconds_per_day, String.reduceEq, reduceIte]
      congr 1
      ring
    · subst h
      simp only [estimate_candles, spec_estimate, interval_seconds_q,
        market_seconds_per_day, String.reduceEq, reduceIte]
      congr 1
      ring
    · subst h
      simp only [estimate_candles, spec_estimate, interval_seconds_q,
        market_seconds_per_day, String.reduceEq, reduceIte]
      congr 1
      ring
    · subst h
      simp only [estimate_candles, spec_estimate, interval_seconds_q,
        market_seconds_per_day, String.reduceEq, reduceIte]
      congr 1
      ring
    · subst h
      simp only [estimate_candles, spec_estimate, String.reduceEq, reduceIte]
      rw [show (days : ℚ) * 5 / 7 = ((days * 5 : ℕ) : ℚ) / ((7 : ℕ) : ℚ) by
        push_cast; ring]
      rw [Nat.floor_div_eq_div]
    · simp at h
  refine ⟨?_, heq⟩
  rw [get_data_uses_chunking, heq]
  simp

/-- Witness for `get_data_chunking_iff` at interval `"1day"` over 1400
calendar days: estimate 1000 > 950, so chunking engages. -/
theorem get_data_chunking_iff_witness :
    ((get_data_uses_chunking "1day" 1400 0 = true ↔
      950 < spec_estimate "1day" 1400 0) ∧
    estimate_candles "1day" 1400 0 = spec_estimate "1day" 1400 0) ∧
    950 < spec_estimate "1day" 1400 0 :=
  ⟨get_data_chunking_iff "1day" 1400 0 (by simp), by decide⟩

theorem pctsOf_append (l1 l2 : List (ℚ × JStatus)) :
    pctsOf (l1 ++ l2) = pctsOf l1 ++ pctsOf l2 := by
  simp [pctsOf, List.filter_append]

theorem chunkPct_nonneg (k n : Nat) : 0 ≤ chunkPct k n := by
  unfold chunkPct
  positivity

theorem chunkPct_zero (n : Nat) : chunkPct 0 n = 5 := by
  simp [chunkPct]

theorem chunkPct_mono {n : Nat} {k k2 : Nat} (hk : k ≤ k2) :
    chunkPct k n ≤ chunkPct k2 n := by
  unfold chunkPct
  rcases Nat.eq_zero_or_pos n with hn | hn
  · subst hn; simp
  · have h2 : (k : ℚ) ≤ (k2 : ℚ) := by exact_mod_cast hk
    have h3 : (0 : ℚ) < (n : ℚ) := by exact_mod_cast hn
    gcongr

theorem chunkPct_self {n : Nat} (hn : 0 < n) : chunkPct n n = 95 := by
  unfold chunkPct
  rw [div_self (by positivity : (n : ℚ) ≠ 0)]
  norm_num

theorem chunkPct_le_95 {k n : Nat} (hk : k ≤ n) (hn : 0 < n) :
    chunkPct k n ≤ 95 := by
  calc chunkPct k n ≤ chunkPct n n := chunkPct_mono hk
    _ = 95 := chunkPct_self hn

theorem chunkPct_ge_5 (k n : Nat) : 5 ≤ chunkPct k n := by
  unfold chunkPct
  have : (0 : ℚ) ≤ (k : ℚ) / (n : ℚ) * 90 := by positivity
  linarith

/-- The result loop over one batch, solved: it appends the successful chunks'
data and the per-chunk progress emissions, and touches nothing else. -/
theorem batchStep_foldl (env : JobEnv) (n b : Nat) :
    ∀ (c : Nat) (s : JobState),
      (List.range c).foldl (batchStep env n b) s =
        { s with allData := s.allData ++ batchData env b c,
                 emitted := s.emitted ++ batchEmits env n b c s.status } := by
  intro c
  induction c with
  | zero =>
    intro s
    simp [batchData, batchEmits]
  | succ c ih =>
    intro s
    rw [List.range_succ, List.foldl_append, ih]
    cases hf : env.fetch (b + c) with
    | none =>
      simp [batchStep, hf, emit, batchData, batchEmits, List.range_succ]
    | some data =>
      simp [batchStep, hf, emit, batchData, batchEmits, List.range_succ]

theorem processBatch_eq (env : JobEnv) (b : Nat) (s : JobState) :
    processBatch env b s =
      { s with allData := s.allData ++ batchData env b (min 10 (env.nChunks - b)),
               emitted := s.emitted ++
                 batchEmits env env.nChunks b (min 10 (env.nChunks - b)) s.status } :=
  batchStep_foldl env env.nChunks b _ s

theorem finalBlock_eq (s : JobState) :
    finalBlock s =
      { s with status := JStatus.completed, active := false, pc := ExecPC.finished,
               resultData := some (process_data s.allData),
               persisted := some (process_data s.allData),
               emitted := s.emitted ++
                 [(95, s.status), (98, s.status), (100, JStatus.completed)] } := by
  simp [finalBlock, emit]

theorem failBlock_eq (s : JobState) :
    failBlock s =
      { s with status := JStatus.failed, active := false, pc := ExecPC.finished,
               emitted := s.emitted ++ [(0, JStatus.failed)] } := by
  simp [failBlock, emit]

theorem resumeStep_finished {env : JobEnv} {s : JobState}
    (h : s.pc = ExecPC.finished) : resumeStep env s = s := by
  unfold resumeStep
  rw [h]

theorem resumeN_finished (env : JobEnv) :
    ∀ m (s : JobState), s.pc = ExecPC.finished → resumeN env m s = s := by
  intro m
  induction m with
  | zero => intro s _; rfl
  | succ m ih =>
    intro s h
    show resumeN env m (resumeStep env s) = s
    rw [resumeStep_finished h]
    exact ih s h

theorem foldl_replicate_resume (env : JobEnv) :
    ∀ m (s : JobState),
      (List.replicate m JobOp.resume).foldl (applyOp env) s = resumeN env m s := by
  intro m
  induction m with
  | zero => intro s; rfl
  | succ m ih =>
    intro s
    rw [List.replicate_succ]
    show (List.replicate m JobOp.resume).foldl (applyOp env) (resumeStep env s) = _
    exact ih (resumeStep env s)

theorem mem_runPcts {s : JobState} {q : ℚ} (hq : q ∈ runPcts s) :
    (q, JStatus.running) ∈ s.emitted := by
  simp only [runPcts, pctsOf, List.mem_map, List.mem_filter] at hq
  obtain ⟨x, ⟨hx1, hx2⟩, hx3⟩ := hq
  have h2 : x.2 = JStatus.running := by
    simpa using hx2
  have hx : x = (q, JStatus.running) := by
    cases x
    simp only [Prod.mk.injEq]
    exact ⟨hx3, h2⟩
  rw [← hx]
  exact hx1

theorem pairwise_le_append (lb : ℚ) {l1 l2 : List ℚ}
    (h1 : l1.Pairwise (fun a b => a ≤ b)) (hl1 : ∀ q ∈ l1, q ≤ lb)
    (h2 : l2.Pairwise (fun a b => a ≤ b)) (hlb : ∀ q ∈ l2, lb ≤ q) :
    (l1 ++ l2).Pairwise (fun a b => a ≤ b) :=
  List.pairwise_append.mpr
    ⟨h1, h2, fun a ha b hb => le_trans (hl1 a ha) (hlb b hb)⟩

theorem jobInv_initial (env : JobEnv) : JobInv env initialState := by
  refine ⟨?_, ?_, ?_, ?_, ?_, ?_, ?_, ?_, ?_⟩
  · intro hpc; exact absurd rfl hpc
  · intro _; rfl
  · intro hc
    rcases hc with hc | hc <;> exact JStatus.noConfusion hc
  · intro b hb; exact ExecPC.noConfusion hb
  · intro b hb; exact ExecPC.noConfusion hb
  · intro hpc; exact ExecPC.noConfusion hpc
  · intro x hx; exact absurd hx (List.not_mem_nil _)
  · exact List.Pairwise.nil
  · intro q hq; exact absurd (mem_runPcts hq) (List.not_mem_nil _)

theorem jobInv_startJob (env : JobEnv) {s : JobState} (h : JobInv env s) :
    JobInv env (startJob s) := by
  unfold startJob
  by_cases ha : s.active
  · rw [if_pos ha]; exact h
  · rw [if_neg ha]
    refine ⟨?_, ?_, ?_, ?_, ?_, ?_, ?_, ?_, ?_⟩
    · intro _; exact Or.inl rfl
    · intro hp; exact JStatus.noConfusion hp
    · intro hc
      rcases hc with hc | hc <;> exact JStatus.noConfusion hc
    · intro b hb; exact ExecPC.noConfusion hb
    · intro b hb; exact ExecPC.noConfusion hb
    · intro _ _; exact ⟨rfl, rfl⟩
    · intro x hx; exact absurd hx (List.not_mem_nil _)
    · exact List.Pairwise.nil
    · intro q hq; exact absurd (mem_runPcts hq) (List.not_mem_nil _)

theorem jobInv_cancelJob (env : JobEnv) {s : JobState} (h : JobInv env s) :
    JobInv env (cancelJob s) := by
  unfold cancelJob
  by_cases ha : s.active
  · rw [if_pos ha]
    refine ⟨?_, ?_, ?_, ?_, ?_, ?_, ?_, ?_, ?_⟩
    · intro _; exact Or.inr ⟨rfl, rfl⟩
    · intro hp; exact JStatus.noConfusion hp
    · intro hc
      rcases hc with hc | hc <;> exact JStatus.noConfusion hc
    · exact h.hGather
    · exact h.hSleep
    · intro hpc hcr; exact Bool.noConfusion hcr
    · exact h.hBounds
    · exact h.hMono
    · exact h.hLow
  · rw [if_neg ha]; exact h

/-- A state with a RUNNING status and a well-bounded trace stays invariant
through the failure handler. -/
theorem jobInv_failBlock (env : JobEnv) {s : JobState}
    (hb : ∀ x ∈ s.emitted, 0 ≤ x.1 ∧ x.1 ≤ 100)
    (hm : (runPcts s).Pairwise (fun a b => a ≤ b)) :
    JobInv env (failBlock s) := by
  rw [failBlock_eq]
  refine ⟨?_, ?_, ?_, ?_, ?_, ?_, ?_, ?_, ?_⟩
  · intro hpc; exact absurd rfl hpc
  · intro hp; exact JStatus.noConfusion hp
  · intro _; exact ⟨rfl, rfl⟩
  · intro b hbb; exact ExecPC.noConfusion hbb
  · intro b hbb; exact ExecPC.noConfusion hbb
  · intro hpc; exact ExecPC.noConfusion hpc
  · intro x hx
    rcases List.mem_append.mp hx with hx | hx
    · exact hb x hx
    · simp only [List.mem_singleton] at hx
      subst hx
      norm_num
  · show (pctsOf (s.emitted ++ [(0, JStatus.failed)])).Pairwise _
    rw [pctsOf_append]
    have h0 : pctsOf [((0 : ℚ), JStatus.failed)] = [] := rfl
    rw [h0, List.append_nil]
    exact hm
  · intro q hq
    have hq2 : q ∈ pctsOf (s.emitted ++ [((0 : ℚ), JStatus.failed)]) := hq
    rw [pctsOf_append] at hq2
    have h0 : pctsOf [((0 : ℚ), JStatus.failed)] = [] := rfl
    rw [h0, List.append_nil] at hq2
    show q ≤ (100 : ℚ)
    exact (hb _ (mem_runPcts hq2)).2

/-- A state with a RUNNING status and a trace bounded by 95 stays invariant
through the completion tail. -/
theorem jobInv_finalBlock (env : JobEnv) {s : JobState}
    (hst : s.status = JStatus.running)
    (hb : ∀ x ∈ s.emitted, 0 ≤ x.1 ∧ x.1 ≤ 100)
    (hm : (runPcts s).Pairwise (fun a b => a ≤ b))
    (hl : ∀ q ∈ runPcts s, q ≤ 95) :
    JobInv env (finalBlock s) := by
  rw [finalBlock_eq, hst]
  refine ⟨?_, ?_, ?_, ?_, ?_, ?_, ?_, ?_, ?_⟩
  · intro hpc; exact absurd rfl hpc
  · intro hp; exact JStatus.noConfusion hp
  · intro _; exact ⟨rfl, rfl⟩
  · intro b hbb; exact ExecPC.noConfusion hbb
  · intro b hbb; exact ExecPC.noConfusion hbb
  · intro hpc; exact ExecPC.noConfusion hpc
  · intro x hx
    rcases List.mem_append.mp hx with hx | hx
    · exact hb x hx
    · rcases List.mem_cons.mp hx with hx | hx
      · subst hx; norm_num
      · rcases List.mem_cons.mp hx with hx | hx
        · subst hx; norm_num
        · simp only [List.mem_singleton] at hx
          subst hx
          norm_num
  · show (pctsOf (s.emitted ++ _)).Pairwise _
    rw [pctsOf_append]
    have h1 : pctsOf [((95 : ℚ), JStatus.running), (98, JStatus.running),
        (100, JStatus.completed)] = [95, 98] := rfl
    rw [h1]
    refine pairwise_le_append 95 hm hl ?_ ?_
    · norm_num
    · intro q hq
      rcases List.mem_cons.mp hq with hq | hq
      · subst hq; norm_num
      · simp only [List.mem_singleton] at hq
        subst hq
        norm_num
  · intro q hq
    have hq2 : q ∈ pctsOf (s.emitted ++ [((95 : ℚ), JStatus.running),
        (98, JStatus.running), (100, JStatus.completed)]) := hq
    rw [pctsOf_append] at hq2
    have h1 : pctsOf [((95 : ℚ), JStatus.running), (98, JStatus.running),
        (100, JStatus.completed)] = [95, 98] := rfl
    rw [h1] at hq2
    show q ≤ (100 : ℚ)
    rcases List.mem_append.mp hq2 with hq3 | hq3
    · have := hl q hq3
      linarith
    · rcases List.mem_cons.mp hq3 with hq4 | hq4
      · subst hq4; norm_num
      · simp only [List.mem_singleton] at hq4
        subst hq4
        norm_num

theorem pctsOf_batchEmits_running (env : JobEnv) (n b c : Nat) :
    pctsOf (batchEmits env n b c JStatus.running) =
      (List.range c).map (fun idx => chunkPct (b + idx + 1) n) := by
  unfold pctsOf batchEmits
  have hall : ∀ a ∈ List.range c,
      ((fun x : ℚ × JStatus => x.2 == JStatus.running) ∘
        fun idx => (chunkPct (b + idx + 1) n, JStatus.running)) a = true := by
    intro a _
    simp [Function.comp]
  rw [List.filter_map, List.filter_eq_self.mpr hall, List.map_map]
  rfl

theorem add_min_ten {b n : Nat} (hb : b ≤ n) :
    b + min 10 (n - b) = min (b + 10) n := by
  rcases Nat.le_total 10 (n - b) with hcase | hcase
  · rw [min_eq_left hcase, min_eq_left (by omega : b + 10 ≤ n)]
  · rw [min_eq_right hcase, min_eq_right (by omega : n ≤ b + 10)]
    omega

theorem lowBound_gather {env : JobEnv} {s : JobState} {b : Nat}
    (hpc : s.pc = ExecPC.awaitingGather b) :
    lowBound env s = chunkPct b env.nChunks := by
  unfold lowBound
  rw [hpc]

theorem lowBound_sleep {env : JobEnv} {s : JobState} {b : Nat}
    (hpc : s.pc = ExecPC.awaitingSleep b) :
    lowBound env s = chunkPct (min (b + 10) env.nChunks) env.nChunks := by
  unfold lowBound
  rw [hpc]

/-- Cooperative cancellation cleanup preserves the invariant. -/
theorem jobInv_cleanup (env : JobEnv) {s : JobState} (h : JobInv env s) :
    JobInv env { s with active := false, pc := ExecPC.finished } := by
  refine ⟨?_, ?_, ?_, ?_, ?_, ?_, h.hBounds, h.hMono, ?_⟩
  · intro hpc; exact absurd rfl hpc
  · intro _; rfl
  · intro _; exact ⟨rfl, rfl⟩
  · intro b hb; exact ExecPC.noConfusion hb
  · intro b hb; exact ExecPC.noConfusion hb
  · intro hpc; exact ExecPC.noConfusion hpc
  · intro q hq
    show q ≤ (100 : ℚ)
    exact (h.hBounds _ (mem_runPcts hq)).2

theorem jobInv_resumeStep (env : JobEnv) {s : JobState} (h : JobInv env s) :
    JobInv env (resumeStep env s) := by
  cases hpc : s.pc with
  | finished =>
    rw [resumeStep_finished hpc]
    exact h
  | notStarted =>
    by_cases hcr : s.cancelRequested = true
    · have hs : resumeStep env s = { s with pc := ExecPC.finished } := by
        unfold resumeStep
        rw [hpc, hcr]
        simp
      rw [hs]
      refine ⟨?_, h.hPending, ?_, ?_, ?_, ?_, h.hBounds, h.hMono, ?_⟩
      · intro hpc2; exact absurd rfl hpc2
      · intro hc; exact ⟨(h.hTerm hc).1, rfl⟩
      · intro b hb; exact ExecPC.noConfusion hb
      · intro b hb; exact ExecPC.noConfusion hb
      · intro hpc2; exact ExecPC.noConfusion hpc2
      · intro q hq
        show q ≤ (100 : ℚ)
        exact (h.hBounds _ (mem_runPcts hq)).2
    · have hcr2 : s.cancelRequested = false := by simpa using hcr
      obtain ⟨hst, hem⟩ := h.hFresh hpc hcr2
      have hs : resumeStep env s = initBlock env s := by
        unfold resumeStep
        rw [hpc, hcr2]
        simp
      rw [hs]
      unfold initBlock
      have hemit0 : emit s 0 = { s with emitted := [((0 : ℚ), JStatus.running)] } := by
        unfold emit
        rw [hem, hst]
        rfl
      cases hpo : env.parseOk with
      | false =>
        simp only [hpo, Bool.false_eq_true, if_false]
        apply jobInv_failBlock
        · rw [hemit0]
          intro x hx
          simp only [List.mem_singleton] at hx
          subst hx
          norm_num
        · rw [hemit0]
          show (pctsOf [((0 : ℚ), JStatus.running)]).Pairwise _
          have h1 : pctsOf [((0 : ℚ), JStatus.running)] = [0] := rfl
          rw [h1]
          simp
      | true =>
        simp only [hpo, if_true]
        have hemit5 : emit (emit s 0) 5 =
            { s with emitted := [((0 : ℚ), JStatus.running),
                                 ((5 : ℚ), JStatus.running)] } := by
          rw [hemit0]
          unfold emit
          rw [hst]
          rfl
        rw [hemit5]
        by_cases hn : env.nChunks = 0
        · rw [if_pos hn]
          apply jobInv_finalBlock
          · exact hst
          · intro x hx
            rcases List.mem_cons.mp hx with hx | hx
            · subst hx; norm_num
            · simp only [List.mem_singleton] at hx
              subst hx
              norm_num
          · show (pctsOf [((0 : ℚ), JStatus.running),
                ((5 : ℚ), JStatus.running)]).Pairwise _
            have h1 : pctsOf [((0 : ℚ), JStatus.running),
                ((5 : ℚ), JStatus.running)] = [0, 5] := rfl
            rw [h1]
            norm_num
          · intro q hq
            have hq2 : q ∈ pctsOf [((0 : ℚ), JStatus.running),
                ((5 : ℚ), JStatus.running)] := hq
            have h1 : pctsOf [((0 : ℚ), JStatus.running),
                ((5 : ℚ), JStatus.running)] = [0, 5] := rfl
            rw [h1] at hq2
            rcases List.mem_cons.mp hq2 with hq3 | hq3
            · subst hq3; norm_num
            · simp only [List.mem_singleton] at hq3
              subst hq3
              norm_num
        · rw [if_neg hn]
          refine ⟨?_, ?_, ?_, ?_, ?_, ?_, ?_, ?_, ?_⟩
          · intro _; exact Or.inl hst
          · intro hp
            have hp2 : s.status = JStatus.pending := hp
            rw [hst] at hp2
            exact JStatus.noConfusion hp2
          · intro hc
            rcases hc with hc | hc
            · have hc2 : s.status = JStatus.completed := hc
              rw [hst] at hc2
              exact JStatus.noConfusion hc2
            · have hc2 : s.status = JStatus.failed := hc
              rw [hst] at hc2
              exact JStatus.noConfusion hc2
          · intro b hb
            have hb2 : ExecPC.awaitingGather 0 = ExecPC.awaitingGather b := hb
            cases hb2
            omega
          · intro b hb; exact ExecPC.noConfusion hb
          · intro hpc2; exact ExecPC.noConfusion hpc2
          · intro x hx
            rcases List.mem_cons.mp hx with hx | hx
            · subst hx; norm_num
            · simp only [List.mem_singleton] at hx
              subst hx
              norm_num
          · show (pctsOf [((0 : ℚ), JStatus.running),
                ((5 : ℚ), JStatus.running)]).Pairwise _
            have h1 : pctsOf [((0 : ℚ), JStatus.running),
                ((5 : ℚ), JStatus.running)] = [0, 5] := rfl
            rw [h1]
            norm_num
          · intro q hq
            have hq2 : q ∈ pctsOf [((0 : ℚ), JStatus.running),
                ((5 : ℚ), JStatus.running)] := hq
            have h1 : pctsOf [((0 : ℚ), JStatus.running),
                ((5 : ℚ), JStatus.running)] = [0, 5] := rfl
            rw [h1] at hq2
            show q ≤ lowBound env { s with
              emitted := [((0 : ℚ), JStatus.running), ((5 : ℚ), JStatus.running)],
              pc := ExecPC.awaitingGather 0 }
            have hlow : lowBound env { s with
                emitted := [((0 : ℚ), JStatus.running), ((5 : ℚ), JStatus.running)],
                pc := ExecPC.awaitingGather 0 } = chunkPct 0 env.nChunks := rfl
            rw [hlow, chunkPct_zero]
            rcases List.mem_cons.mp hq2 with hq3 | hq3
            · subst hq3; norm_num
            · simp only [List.mem_singleton] at hq3
              subst hq3
              norm_num
  | awaitingGather b =>
    by_cases hcr : s.cancelRequested = true
    · have hs : resumeStep env s =
          { s with active := false, pc := ExecPC.finished } := by
        unfold resumeStep
        rw [hpc, hcr]
        simp
      rw [hs]
      exact jobInv_cleanup env h
    · have hcr2 : s.cancelRequested = false := by simpa using hcr
      have hst : s.status = JStatus.running := by
        rcases h.hStatus (by rw [hpc]; intro hcon; exact ExecPC.noConfusion hcon)
          with h1 | h1
        · exact h1
        · rw [h1.2] at hcr2
          exact Bool.noConfusion hcr2
      have hbn : b < env.nChunks := h.hGather b hpc
      have hs : resumeStep env s =
          { s with
            allData := s.allData ++ batchData env b (min 10 (env.nChunks - b)),
            emitted := s.emitted ++ batchEmits env env.nChunks b (min 10 (env.nChunks - b)) s.status,
            pc := ExecPC.awaitingSleep b } := by
        unfold resumeStep
        rw [hpc, hcr2]
        simp only [Bool.false_eq_true, if_false]
        rw [processBatch_eq]
        simp [hcr2]
      rw [hs, hst]
      have hidx : ∀ idx, idx < min 10 (env.nChunks - b) →
          b + idx + 1 ≤ env.nChunks := by
        intro idx hi
        have h2 : idx < env.nChunks - b := lt_of_lt_of_le hi (min_le_right _ _)
        omega
      refine ⟨?_, ?_, ?_, ?_, ?_, ?_, ?_, ?_, ?_⟩
      · intro _; exact Or.inl rfl
      · intro hp
        exact JStatus.noConfusion hp
      · intro hc
        rcases hc with hc | hc
        · exact JStatus.noConfusion hc
        · exact JStatus.noConfusion hc
      · intro b2 hb2; exact ExecPC.noConfusion hb2
      · intro b2 hb2
        have hb3 : ExecPC.awaitingSleep b = ExecPC.awaitingSleep b2 := hb2
        cases hb3
        exact hbn
      · intro hpc2; exact ExecPC.noConfusion hpc2
      · intro x hx
        have hx2 : x ∈ s.emitted ++
            batchEmits env env.nChunks b (min 10 (env.nChunks - b))
              JStatus.running := hx
        rcases List.mem_append.mp hx2 with hx3 | hx3
        · exact h.hBounds x hx3
        · simp only [batchEmits, List.mem_map, List.mem_range] at hx3
          obtain ⟨idx, hi, hxeq⟩ := hx3
          subst hxeq
          refine ⟨chunkPct_nonneg _ _, ?_⟩
          show chunkPct (b + idx + 1) env.nChunks ≤ 100
          have h95 := chunkPct_le_95 (hidx idx hi) (by omega : 0 < env.nChunks)
          linarith
      · show (pctsOf (s.emitted ++ batchEmits env env.nChunks b
            (min 10 (env.nChunks - b)) JStatus.running)).Pairwise _
        rw [pctsOf_append, pctsOf_batchEmits_running]
        refine pairwise_le_append (chunkPct b env.nChunks) h.hMono ?_ ?_ ?_
        · intro q hq
          have h2 := h.hLow q hq
          rw [lowBound_gather hpc] at h2
          exact h2
        · rw [List.pairwise_map]
          refine (List.pairwise_lt_range _).imp ?_
          intro i j hij
          exact chunkPct_mono (by omega)
        · intro q hq
          simp only [List.mem_map, List.mem_range] at hq
          obtain ⟨idx, hi, hq2⟩ := hq
          subst hq2
          exact chunkPct_mono (by omega)
      · intro q hq
        have hq2 : q ∈ pctsOf (s.emitted ++ batchEmits env env.nChunks b
            (min 10 (env.nChunks - b)) JStatus.running) := hq
        rw [pctsOf_append, pctsOf_batchEmits_running] at hq2
        show q ≤ lowBound env _
        rw [lowBound_sleep rfl, ← add_min_ten (le_of_lt hbn)]
        rcases List.mem_append.mp hq2 with hq3 | hq3
        · have h2 := h.hLow q hq3
          rw [lowBound_gather hpc] at h2
          exact le_trans h2 (chunkPct_mono (by omega))
        · simp only [List.mem_map, List.mem_range] at hq3
          obtain ⟨idx, hi, hq4⟩ := hq3
          subst hq4
          have h2 : idx < env.nChunks - b := lt_of_lt_of_le hi (min_le_right _ _)
          exact chunkPct_mono (by omega)
  | awaitingSleep b =>
    by_cases hcr : s.cancelRequested = true
    · have hs : resumeStep env s =
          { s with active := false, pc := ExecPC.finished } := by
        unfold resumeStep
        rw [hpc, hcr]
        simp
      rw [hs]
      exact jobInv_cleanup env h
    · have hcr2 : s.cancelRequested = false := by simpa using hcr
      have hst : s.status = JStatus.running := by
        rcases h.hStatus (by rw [hpc]; intro hcon; exact ExecPC.noConfusion hcon)
          with h1 | h1
        · exact h1
        · rw [h1.2] at hcr2
          exact Bool.noConfusion hcr2
      have hbn : b < env.nChunks := h.hSleep b hpc
      by_cases hlt : b + 10 < env.nChunks
      · have hs : resumeStep env s =
            { s with pc := ExecPC.awaitingGather (b + 10) } := by
          unfold resumeStep
          rw [hpc, hcr2]
          simp [hlt]
        rw [hs]
        refine ⟨?_, h.hPending, ?_, ?_, ?_, ?_, h.hBounds, h.hMono, ?_⟩
        · intro _; exact Or.inl hst
        · intro hc
          exact absurd (h.hTerm hc).2 (by rw [hpc]; intro hcon; exact ExecPC.noConfusion hcon)
        · intro b2 hb2
          have hb3 : ExecPC.awaitingGather (b + 10) = ExecPC.awaitingGather b2 := hb2
          cases hb3
          exact hlt
        · intro b2 hb2; exact ExecPC.noConfusion hb2
        · intro hpc2; exact ExecPC.noConfusion hpc2
        · intro q hq
          have h2 := h.hLow q hq
          rw [lowBound_sleep hpc, min_eq_left (le_of_lt hlt)] at h2
          show q ≤ lowBound env _
          rw [lowBound_gather rfl]
          exact h2
      · have hs : resumeStep env s = finalBlock s := by
          unfold resumeStep
          rw [hpc, hcr2]
          simp [hlt]
        rw [hs]
        apply jobInv_finalBlock env hst h.hBounds h.hMono
        intro q hq
        have h2 := h.hLow q hq
        rw [lowBound_sleep hpc] at h2
        exact le_trans h2 (chunkPct_le_95 (min_le_right _ _) (by omega))

theorem jobInv_applyOp (env : JobEnv) {s : JobState} (h : JobInv env s)
    (op : JobOp) : JobInv env (applyOp env s op) := by
  cases op with
  | start => exact jobInv_startJob env h
  | cancel => exact jobInv_cancelJob env h
  | resume => exact jobInv_resumeStep env h

theorem jobInv_foldl (env : JobEnv) :
    ∀ (ops : List JobOp) (s : JobState), JobInv env s →
      JobInv env (ops.foldl (applyOp env) s) := by
  intro ops
  induction ops with
  | nil => intro s h; exact h
  | cons op rest ih =>
    intro s h
    exact ih (applyOp env s op) (jobInv_applyOp env h op)

theorem jobInv_runOps (env : JobEnv) (ops : List JobOp) :
    JobInv env (runOps env ops) :=
  jobInv_foldl env ops initialState (jobInv_initial env)

theorem resumeStep_gather {env : JobEnv} {s : JobState} {b : Nat}
    (hpc : s.pc = ExecPC.awaitingGather b) (hcr : s.cancelRequested = false) :
    resumeStep env s =
      { s with
        allData := s.allData ++ batchData env b (min 10 (env.nChunks - b)),
        emitted := s.emitted ++ batchEmits env env.nChunks b (min 10 (env.nChunks - b)) s.status,
        pc := ExecPC.awaitingSleep b } := by
  unfold resumeStep
  rw [hpc, hcr]
  simp only [Bool.false_eq_true, if_false]
  rw [processBatch_eq]
  simp [hcr]

theorem resumeStep_sleep_next {env : JobEnv} {s : JobState} {b : Nat}
    (hpc : s.pc = ExecPC.awaitingSleep b) (hcr : s.cancelRequested = false)
    (hlt : b + 10 < env.nChunks) :
    resumeStep env s = { s with pc := ExecPC.awaitingGather (b + 10) } := by
  unfold resumeStep
  rw [hpc, hcr]
  simp [hlt]

theorem resumeStep_sleep_final {env : JobEnv} {s : JobState} {b : Nat}
    (hpc : s.pc = ExecPC.awaitingSleep b) (hcr : s.cancelRequested = false)
    (hge : ¬ b + 10 < env.nChunks) :
    resumeStep env s = finalBlock s := by
  unfold resumeStep
  rw [hpc, hcr]
  simp [hge]

theorem tailData_split (env : JobEnv) {b : Nat} (h : b + 10 < env.nChunks) :
    tailData env b = batchData env b 10 ++ tailData env (b + 10) := by
  unfold tailData batchData
  have h1 : env.nChunks - b = 10 + (env.nChunks - (b + 10)) := by omega
  rw [h1, List.range_add, List.map_append, List.flatten_append, List.map_map]
  congr 1
  refine congrArg List.flatten ?_
  refine List.map_congr_left ?_
  intro a _
  show (env.fetch (b + (10 + a))).getD [] = (env.fetch (b + 10 + a)).getD []
  rw [Nat.add_assoc]

/-- A failed or empty chunk contributes nothing, so flattening only the
successful chunks' data equals flattening everything. -/
theorem flatten_filter_isSome (f : Nat → Option (List Candle)) :
    ∀ l : List Nat,
      (((l.filter (fun i => (f i).isSome)).map (fun i => (f i).getD [])).flatten) =
        ((l.map (fun i => (f i).getD [])).flatten) := by
  intro l
  induction l with
  | nil => rfl
  | cons i rest ih =>
    simp only [List.filter_cons, List.map_cons, List.flatten_cons]
    cases hfi : f i with
    | none =>
      simp only [hfi, Option.isSome_none, Bool.false_eq_true, if_false]
      rw [ih]
      rfl
    | some d =>
      simp only [hfi, Option.isSome_some, if_true, List.map_cons, List.flatten_cons]
      rw [ih]

/-- Driving the executor from the gather point of the batch at chunk index
`b` for `k` more batches (two scheduler turns each) completes the job with
the merged data of everything accumulated so far plus all remaining chunks,
and hands exactly that series to the persistence store. -/
theorem loopRun (env : JobEnv) :
    ∀ (k b : Nat) (s : JobState), b < env.nChunks → env.nChunks ≤ b + 10 * k →
      s.pc = ExecPC.awaitingGather b → s.status = JStatus.running →
      s.cancelRequested = false →
      (resumeN env (2 * k) s).status = JStatus.completed ∧
      (resumeN env (2 * k) s).active = false ∧
      (resumeN env (2 * k) s).pc = ExecPC.finished ∧
      (resumeN env (2 * k) s).resultData =
        some (process_data (s.allData ++ tailData env b)) ∧
      (resumeN env (2 * k) s).persisted =
        some (process_data (s.allData ++ tailData env b)) := by
  intro k
  induction k with
  | zero =>
    intro b s hb hn _ _ _
    omega
  | succ k ih =>
    intro b s hb hn hpc hst hcr
    have h2k : 2 * (k + 1) = 2 * k + 1 + 1 := by ring
    rw [h2k]
    have hstep : resumeN env (2 * k + 1 + 1) s =
        resumeN env (2 * k) (resumeStep env (resumeStep env s)) := rfl
    rw [hstep]
    by_cases hlt : b + 10 < env.nChunks
    · have hmin : min 10 (env.nChunks - b) = 10 :=
        min_eq_left (by omega)
      have hnext : resumeStep env
          { s with
            allData := s.allData ++ batchData env b 10,
            emitted := s.emitted ++ batchEmits env env.nChunks b 10 s.status,
            pc := ExecPC.awaitingSleep b } =
          { s with
            allData := s.allData ++ batchData env b 10,
            emitted := s.emitted ++ batchEmits env env.nChunks b 10 s.status,
            pc := ExecPC.awaitingGather (b + 10) } :=
        resumeStep_sleep_next rfl hcr hlt
      have hd : resumeStep env (resumeStep env s) =
          { s with
            allData := s.allData ++ batchData env b 10,
            emitted := s.emitted ++ batchEmits env env.nChunks b 10 s.status,
            pc := ExecPC.awaitingGather (b + 10) } := by
        rw [resumeStep_gather hpc hcr, hmin, hnext]
      rw [hd]
      have hrec := ih (b + 10)
        { s with
          allData := s.allData ++ batchData env b 10,
          emitted := s.emitted ++ batchEmits env env.nChunks b 10 s.status,
          pc := ExecPC.awaitingGather (b + 10) }
        hlt (by omega) rfl hst hcr
      obtain ⟨c1, c2, c3, c4, c5⟩ := hrec
      refine ⟨c1, c2, c3, ?_, ?_⟩
      · rw [c4]
        show some (process_data ((s.allData ++ batchData env b 10) ++
          tailData env (b + 10))) = _
        rw [List.append_assoc, ← tailData_split env hlt]
      · rw [c5]
        show some (process_data ((s.allData ++ batchData env b 10) ++
          tailData env (b + 10))) = _
        rw [List.append_assoc, ← tailData_split env hlt]
    · have hmin : min 10 (env.nChunks - b) = env.nChunks - b :=
        min_eq_right (by omega)
      have hfin : resumeStep env
          { s with
            allData := s.allData ++ batchData env b (env.nChunks - b),
            emitted := s.emitted ++ batchEmits env env.nChunks b (env.nChunks - b) s.status,
            pc := ExecPC.awaitingSleep b } =
          finalBlock { s with
            allData := s.allData ++ batchData env b (env.nChunks - b),
            emitted := s.emitted ++ batchEmits env env.nChunks b (env.nChunks - b) s.status,
            pc := ExecPC.awaitingSleep b } :=
        resumeStep_sleep_final rfl hcr hlt
      have hd : resumeStep env (resumeStep env s) =
          finalBlock { s with
            allData := s.allData ++ batchData env b (env.nChunks - b),
            emitted := s.emitted ++ batchEmits env env.nChunks b (env.nChunks - b) s.status,
            pc := ExecPC.awaitingSleep b } := by
        rw [resumeStep_gather hpc hcr, hmin, hfin]
      rw [hd]
      have hfinpc : (finalBlock { s with
          allData := s.allData ++ batchData env b (env.nChunks - b),
          emitted := s.emitted ++ batchEmits env env.nChunks b (env.nChunks - b) s.status,
          pc := ExecPC.awaitingSleep b }).pc = ExecPC.finished := by
        rw [finalBlock_eq]
      rw [resumeN_finished env _ _ hfinpc, finalBlock_eq]
      exact ⟨rfl, rfl, rfl, rfl, rfl⟩

/-- C7: every progress percentage a job ever emits lies in [0, 100], and the
percentages emitted while the job is RUNNING — from job start up to its
terminal transition — form a monotonically non-decreasing sequence. -/
theorem progress_monotone (env : JobEnv) (ops : List JobOp) :
    (∀ x ∈ (runOps env ops).emitted, 0 ≤ x.1 ∧ x.1 ≤ 100) ∧
    (runPcts (runOps env ops)).Pairwise (fun a b => a ≤ b) :=
  ⟨(jobInv_runOps env ops).hBounds, (jobInv_runOps env ops).hMono⟩

/-- Witness for `progress_monotone`: the first emission of a started job. -/
theorem progress_monotone_witness : (0 : ℚ) ≤ 0 ∧ (0 : ℚ) ≤ 100 :=
  (progress_monotone envA [JobOp.start, JobOp.resume]).1
    ((0 : ℚ), JStatus.running) (by decide)

/-- C9: `cancel_job` returns true exactly when an executor task is registered
for the job at call time, and on a PENDING job that was never started it
returns false and leaves the job record (in particular its status)
unchanged. -/
theorem cancel_job_active_iff (env : JobEnv) (ops : List JobOp) :
    (cancelRet (runOps env ops) = true ↔ (runOps env ops).active = true) ∧
    ((runOps env ops).status = JStatus.pending →
      cancelRet (runOps env ops) = false ∧
      cancelJob (runOps env ops) = runOps env ops) := by
  refine ⟨Iff.rfl, ?_⟩
  intro hp
  have hact := (jobInv_runOps env ops).hPending hp
  refine ⟨hact, ?_⟩
  unfold cancelJob
  rw [hact]
  simp

/-- Witness for `cancel_job_active_iff`: cancelling a freshly created,
never-started job fails and changes nothing. -/
theorem cancel_job_active_iff_witness :
    cancelRet (runOps envA []) = false ∧
    cancelJob (runOps envA []) = runOps envA [] :=
  (cancel_job_active_iff envA []).2 (by decide)

/-- C4 counterexample: a job driven to COMPLETED can be started again —
`start_job` checks only membership in `active_jobs`, not the terminal status
— and its status becomes RUNNING again, so COMPLETED is not final. -/
theorem terminal_not_final_counterexample :
    (runOps envA [JobOp.start, JobOp.resume, JobOp.resume,
      JobOp.resume]).status = JStatus.completed ∧
    (runOps envA [JobOp.start, JobOp.resume, JobOp.resume, JobOp.resume,
      JobOp.start]).status = JStatus.running := by
  decide

/-- C4 amended: transitions stay monotonic — a PENDING job can only stay
PENDING or move to RUNNING, and a terminal status (COMPLETED, FAILED,
CANCELLED) is changed by no operation except `start_job` on a job with no
registered executor task, which restarts the job and sets RUNNING. -/
theorem status_transitions (env : JobEnv) (ops : List JobOp) (op : JobOp) :
    ((runOps env ops).status = JStatus.pending →
      (applyOp env (runOps env ops) op).status = JStatus.pending ∨
      (applyOp env (runOps env ops) op).status = JStatus.running) ∧
    ((runOps env ops).status = JStatus.completed ∨
     (runOps env ops).status = JStatus.failed ∨
     (runOps env ops).status = JStatus.cancelled →
      (applyOp env (runOps env ops) op).status = (runOps env ops).status ∨
      (op = JobOp.start ∧ (runOps env ops).active = false ∧
        (applyOp env (runOps env ops) op).status = JStatus.running)) := by
  have hinv := jobInv_runOps env ops
  set s := runOps env ops with hsdef
  constructor
  · intro hp
    cases op with
    | start =>
      show (startJob s).status = _ ∨ (startJob s).status = _
      unfold startJob
      by_cases ha : s.active
      · rw [if_pos ha]; exact Or.inl hp
      · rw [if_neg ha]; exact Or.inr rfl
    | cancel =>
      show (cancelJob s).status = _ ∨ (cancelJob s).status = _
      unfold cancelJob
      rw [hinv.hPending hp]
      simp only [Bool.false_eq_true, if_false]
      exact Or.inl hp
    | resume =>
      have hpcf : s.pc = ExecPC.finished := by
        by_contra hne
        rcases hinv.hStatus hne with h1 | h1
        · rw [hp] at h1
          exact JStatus.noConfusion h1
        · rw [hp] at h1
          exact JStatus.noConfusion h1.1
      show (resumeStep env s).status = _ ∨ (resumeStep env s).status = _
      rw [resumeStep_finished hpcf]
      exact Or.inl hp
  · intro hterm
    cases op with
    | start =>
      show (startJob s).status = s.status ∨
        (JobOp.start = JobOp.start ∧ s.active = false ∧
          (startJob s).status = JStatus.running)
      unfold startJob
      by_cases ha : s.active
      · rw [if_pos ha]; exact Or.inl rfl
      · rw [if_neg ha]
        exact Or.inr ⟨rfl, by simpa using ha, rfl⟩
    | cancel =>
      show (cancelJob s).status = s.status ∨ _
      unfold cancelJob
      by_cases ha : s.active
      · rw [if_pos ha]
        left
        rcases hterm with hc | hc | hc
        · have hfin := (hinv.hTerm (Or.inl hc)).1
          rw [hfin] at ha
          exact Bool.noConfusion ha
        · have hfin := (hinv.hTerm (Or.inr hc)).1
          rw [hfin] at ha
          exact Bool.noConfusion ha
        · exact hc.symm
      · rw [if_neg ha]; exact Or.inl rfl
    | resume =>
      show (resumeStep env s).status = s.status ∨ _
      left
      by_cases hpcf : s.pc = ExecPC.finished
      · rw [resumeStep_finished hpcf]
      · rcases hinv.hStatus hpcf with h1 | h1
        · rcases hterm with hc | hc | hc <;>
            (rw [h1] at hc; exact JStatus.noConfusion hc)
        · obtain ⟨hcanc, hcreq⟩ := h1
          cases hpc2 : s.pc with
          | finished => exact absurd hpc2 hpcf
          | notStarted =>
            have hr : resumeStep env s = { s with pc := ExecPC.finished } := by
              unfold resumeStep
              rw [hpc2, hcreq]
              simp
            rw [hr]
          | awaitingGather b =>
            have hr : resumeStep env s =
                { s with active := false, pc := ExecPC.finished } := by
              unfold resumeStep
              rw [hpc2, hcreq]
              simp
            rw [hr]
          | awaitingSleep b =>
            have hr : resumeStep env s =
                { s with active := false, pc := ExecPC.finished } := by
              unfold resumeStep
              rw [hpc2, hcreq]
              simp
            rw [hr]

/-- Witness for `status_transitions`: a second cancel on an already cancelled
job leaves the status CANCELLED. -/
theorem status_transitions_witness :
    (applyOp envA (runOps envA [JobOp.start, JobOp.cancel]) JobOp.cancel).status =
      (runOps envA [JobOp.start, JobOp.cancel]).status ∨
    (JobOp.cancel = JobOp.start ∧
      (runOps envA [JobOp.start, JobOp.cancel]).active = false ∧
      (applyOp envA (runOps envA [JobOp.start, JobOp.cancel]) JobOp.cancel).status =
        JStatus.running) :=
  (status_transitions envA [JobOp.start, JobOp.cancel] JobOp.cancel).2 (by decide)

/-- Once cancelled with a pending task cancellation, and with no further
`start_job`, the job stays CANCELLED and its result and persistence fields
never change. -/
theorem cancelled_stays (env : JobEnv) :
    ∀ (ops : List JobOp) (s : JobState), JobOp.start ∉ ops →
      s.status = JStatus.cancelled → s.cancelRequested = true →
      (ops.foldl (applyOp env) s).status = JStatus.cancelled ∧
      (ops.foldl (applyOp env) s).cancelRequested = true ∧
      (ops.foldl (applyOp env) s).persisted = s.persisted ∧
      (ops.foldl (applyOp env) s).resultData = s.resultData := by
  intro ops
  induction ops with
  | nil =>
    intro s _ h1 h2
    exact ⟨h1, h2, rfl, rfl⟩
  | cons op rest ih =>
    intro s hno h1 h2
    have hrest : JobOp.start ∉ rest := fun hc => hno (List.mem_cons_of_mem _ hc)
    rw [List.foldl_cons]
    cases op with
    | start =>
      exact absurd (List.mem_cons_self _ _) hno
    | cancel =>
      simp only [applyOp]
      unfold cancelJob
      by_cases ha : s.active
      · rw [if_pos ha]
        exact ih _ hrest rfl rfl
      · rw [if_neg ha]
        exact ih _ hrest h1 h2
    | resume =>
      simp only [applyOp]
      cases hpc : s.pc with
      | finished =>
        rw [resumeStep_finished hpc]
        exact ih _ hrest h1 h2
      | notStarted =>
        have hr : resumeStep env s = { s with pc := ExecPC.finished } := by
          unfold resumeStep
          rw [hpc, h2]
          simp
        rw [hr]
        exact ih _ hrest h1 h2
      | awaitingGather b =>
        have hr : resumeStep env s =
            { s with active := false, pc := ExecPC.finished } := by
          unfold resumeStep
          rw [hpc, h2]
          simp
        rw [hr]
        exact ih _ hrest h1 h2
      | awaitingSleep b =>
        have hr : resumeStep env s =
            { s with active := false, pc := ExecPC.finished } := by
          unfold resumeStep
          rw [hpc, h2]
          simp
        rw [hr]
        exact ih _ hrest h1 h2

/-- C6 amended: after a `cancel_job` that succeeds (an executor task was
registered), unless `start_job` is later called on the same job again, the
job's status stays CANCELLED — in particular it never reaches COMPLETED —
and neither the job's result series nor the persistence store receive
anything: in-flight partial chunk data is discarded. -/
theorem cancel_discards (env : JobEnv) (ops1 ops2 : List JobOp)
    (hactive : (runOps env ops1).active = true)
    (hnostart : JobOp.start ∉ ops2) :
    (runOps env (ops1 ++ JobOp.cancel :: ops2)).status = JStatus.cancelled ∧
    (runOps env (ops1 ++ JobOp.cancel :: ops2)).persisted =
      (runOps env ops1).persisted ∧
    (runOps env (ops1 ++ JobOp.cancel :: ops2)).resultData =
      (runOps env ops1).resultData := by
  have hsplit : runOps env (ops1 ++ JobOp.cancel :: ops2) =
      ops2.foldl (applyOp env) (cancelJob (runOps env ops1)) := by
    unfold runOps
    rw [List.foldl_append]
    rfl
  rw [hsplit]
  have hc : cancelJob (runOps env ops1) =
      { runOps env ops1 with
        cancelRequested := true, status := JStatus.cancelled } := by
    unfold cancelJob
    rw [if_pos hactive]
  rw [hc]
  have h3 := cancelled_stays env ops2
    { runOps env ops1 with
      cancelRequested := true, status := JStatus.cancelled } hnostart rfl rfl
  exact ⟨h3.1, h3.2.2.1, h3.2.2.2⟩

/-- Witness for `cancel_discards`: cancel while the executor is suspended at
its first gather; further scheduler turns leave the job CANCELLED with no
result and nothing persisted. -/
theorem cancel_discards_witness :
    (runOps envA ([JobOp.start, JobOp.resume] ++ JobOp.cancel ::
      [JobOp.resume, JobOp.resume])).status = JStatus.cancelled ∧
    (runOps envA ([JobOp.start, JobOp.resume] ++ JobOp.cancel ::
      [JobOp.resume, JobOp.resume])).persisted =
      (runOps envA [JobOp.start, JobOp.resume]).persisted ∧
    (runOps envA ([JobOp.start, JobOp.resume] ++ JobOp.cancel ::
      [JobOp.resume, JobOp.resume])).resultData =
      (runOps envA [JobOp.start, JobOp.resume]).resultData :=
  cancel_discards envA [JobOp.start, JobOp.resume] [JobOp.resume, JobOp.resume]
    (by decide) (by decide)

/-- C6 counterexample: `cancel_job` succeeds (executor registered at call
time), yet a later `start_job` restarts the job, which then runs to
COMPLETED and hands its series to the persistence store. -/
theorem cancel_then_restart_completes :
    cancelRet (runOps envA [JobOp.start, JobOp.resume]) = true ∧
    (runOps envA ([JobOp.start, JobOp.resume] ++ JobOp.cancel ::
      [JobOp.resume, JobOp.start, JobOp.resume, JobOp.resume,
        JobOp.resume])).status = JStatus.completed ∧
    (runOps envA ([JobOp.start, JobOp.resume] ++ JobOp.cancel ::
      [JobOp.resume, JobOp.start, JobOp.resume, JobOp.resume,
        JobOp.resume])).persisted = some [] := by
  decide

/-- C5: when exactly one chunk's fetch fails and every other chunk succeeds,
the job still reaches COMPLETED — no exception reaches the job level — and
its result series (also the persisted series) is exactly the merge of the
successful chunks' candles, the failed chunk's contribution being omitted. -/
theorem single_chunk_failure_completes (env : JobEnv) (k : Nat)
    (hparse : env.parseOk = true) (hrange : env.startT < env.endT)
    (hk : k < env.nChunks) (hfail : env.fetch k = none)
    (hsucc : ∀ j, j < env.nChunks → j ≠ k → (env.fetch j).isSome = true) :
    (runOps env (JobOp.start ::
      List.replicate (1 + 2 * ((env.nChunks + 9) / 10)) JobOp.resume)).status =
      JStatus.completed ∧
    (runOps env (JobOp.start ::
      List.replicate (1 + 2 * ((env.nChunks + 9) / 10)) JobOp.resume)).resultData =
      some (process_data ((((List.range env.nChunks).filter
        (fun i => (env.fetch i).isSome)).map
        (fun i => (env.fetch i).getD [])).flatten)) ∧
    (runOps env (JobOp.start ::
      List.replicate (1 + 2 * ((env.nChunks + 9) / 10)) JobOp.resume)).persisted =
      some (process_data ((((List.range env.nChunks).filter
        (fun i => (env.fetch i).isSome)).map
        (fun i => (env.fetch i).getD [])).flatten)) := by
  have hn : 0 < env.nChunks := by omega
  have hrw : runOps env (JobOp.start ::
      List.replicate (1 + 2 * ((env.nChunks + 9) / 10)) JobOp.resume) =
      resumeN env (2 * ((env.nChunks + 9) / 10))
        (resumeStep env (startJob initialState)) := by
    unfold runOps
    rw [List.foldl_cons]
    show (List.replicate (1 + 2 * ((env.nChunks + 9) / 10)) JobOp.resume).foldl
      (applyOp env) (startJob initialState) = _
    rw [foldl_replicate_resume]
    rw [Nat.add_comm 1 (2 * ((env.nChunks + 9) / 10))]
    rfl
  have hres : resumeStep env (startJob initialState) =
      { startJob initialState with
        emitted := [((0 : ℚ), JStatus.running), ((5 : ℚ), JStatus.running)],
        pc := ExecPC.awaitingGather 0 } := by
    have hpc0 : (startJob initialState).pc = ExecPC.notStarted := rfl
    have hcr0 : (startJob initialState).cancelRequested = false := rfl
    unfold resumeStep
    rw [hpc0, hcr0]
    simp only [Bool.false_eq_true, if_false]
    unfold initBlock
    rw [hparse]
    simp only [if_true]
    rw [if_neg (by omega : ¬ env.nChunks = 0)]
    rfl
  rw [hrw, hres]
  have hloop := loopRun env ((env.nChunks + 9) / 10) 0
    { startJob initialState with
      emitted := [((0 : ℚ), JStatus.running), ((5 : ℚ), JStatus.running)],
      pc := ExecPC.awaitingGather 0 }
    hn (by omega) rfl rfl rfl
  obtain ⟨c1, c2, c3, c4, c5⟩ := hloop
  have hdata : ([] : List Candle) ++ tailData env 0 =
      (((List.range env.nChunks).filter (fun i => (env.fetch i).isSome)).map
        (fun i => (env.fetch i).getD [])).flatten := by
    rw [List.nil_append, flatten_filter_isSome]
    unfold tailData batchData
    rw [Nat.sub_zero]
    refine congrArg List.flatten ?_
    refine List.map_congr_left ?_
    intro a _
    rw [Nat.zero_add]
  refine ⟨c1, ?_, ?_⟩
  · rw [c4, ← hdata]
    rfl
  · rw [c5, ← hdata]
    rfl

/-- Witness for `single_chunk_failure_completes` on `envB`: two chunks, the
second fails, the job nevertheless completes with the merged data of chunk 0
only. -/
theorem single_chunk_failure_completes_witness :
    (runOps envB (JobOp.start ::
      List.replicate (1 + 2 * ((envB.nChunks + 9) / 10)) JobOp.resume)).status =
      JStatus.completed ∧
    (runOps envB (JobOp.start ::
      List.replicate (1 + 2 * ((envB.nChunks + 9) / 10)) JobOp.resume)).resultData =
      some (process_data ((((List.range envB.nChunks).filter
        (fun i => (envB.fetch i).isSome)).map
        (fun i => (envB.fetch i).getD [])).flatten)) ∧
    (runOps envB (JobOp.start ::
      List.replicate (1 + 2 * ((envB.nChunks + 9) / 10)) JobOp.resume)).persisted =
      some (process_data ((((List.range envB.nChunks).filter
        (fun i => (envB.fetch i).isSome)).map
        (fun i => (envB.fetch i).getD [])).flatten)) :=
  single_chunk_failure_completes envB 1 rfl (by decide) (by decide) (by decide)
    (by decide)

end AlgoTrading

